import Mathlib

/-!
Verification of the go-htmlutil node-filtering and traversal layer.

The development shallowly embeds the package's core traversal
(`filterNodes` in internal.go) and the `Node` handle wrapper
(htmlutil.go) into Lean, and proves the specification's testable
properties about them.

Modelling conventions:
* A parsed html tree (`*html.Node` restricted to the child structure the
  traversal uses) is a rose tree `HNode` carrying a numeric identity.
  Go compares result entries by pointer equality (`result[i] != result[j]`);
  in a real parsed tree all node pointers are distinct, which the model
  expresses as the `HNode.WellFormed` hypothesis (all identities in the
  tree are distinct), under which structural equality of subtrees
  coincides with pointer identity.
* The Go loop `for c := n.FirstChild; c != nil; c = c.NextSibling`
  enumerates exactly the children list, modelled as `List HNode`.
* Mutable accumulation into the shared `result` slice becomes explicit
  state passing of the accumulated list.
-/

/-- A node of the parsed html tree: an identity (standing for the Go
pointer) together with the ordered list of children. -/
inductive HNode : Type where
  | mk (nodeId : Nat) (children : List HNode) : HNode

/-- The identity of a node (the model of its Go pointer). -/
def HNode.nodeId : HNode → Nat
  | .mk i _ => i

/-- The ordered children of a node (the Go
`FirstChild` / `NextSibling` enumeration). -/
def HNode.children : HNode → List HNode
  | .mk _ cs => cs

theorem HNode.sizeOf_children_lt (n : HNode) : sizeOf n.children < sizeOf n := by
  cases n with
  | mk i cs => simp [HNode.children]

mutual
def HNode.deq : (a b : HNode) → Decidable (a = b)
  | .mk i cs, .mk j ds =>
    match Nat.decEq i j with
    | isFalse h => isFalse (by simp [h])
    | isTrue hi =>
      match HNode.deqList cs ds with
      | isTrue hc => isTrue (by rw [hi, hc])
      | isFalse h => isFalse (by simp [hi, h])

def HNode.deqList : (a b : List HNode) → Decidable (a = b)
  | [], [] => isTrue rfl
  | [], _ :: _ => isFalse (by simp)
  | _ :: _, [] => isFalse (by simp)
  | a :: as, b :: bs =>
    match HNode.deq a b, HNode.deqList as bs with
    | isTrue h1, isTrue h2 => isTrue (by rw [h1, h2])
    | isFalse h1, _ => isFalse (by simp [h1])
    | _, isFalse h2 => isFalse (by simp [h2])
end

instance : DecidableEq HNode := HNode.deq

/-- A filter over raw nodes, `func(node *html.Node) bool` in the source. -/
abbrev Pred := HNode → Bool

/-- Translation of `copyValidFilters` (internal.go): keep the non-nil
filters, in order.  A possibly-nil Go filter is an `Option Pred`. -/
def copyValidFilters : List (Option Pred) → List Pred
  | [] => []
  | none :: rest => copyValidFilters rest
  | some f :: rest => f :: copyValidFilters rest

/-- One pass of the in-place duplicate-removal loop of `filterNodes`
(internal.go, the nested `for i` / `for j` loops): every entry at index
`j ≥ finish` that is identical to some entry in `result[start:finish]`
is removed, the remaining entries keeping their order. -/
def dedupStep (start finish : Nat) (result : List HNode) : List HNode :=
  result.take finish ++
    (result.drop finish).filter
      (fun x => !(decide (x ∈ (result.take finish).drop start)))

mutual
/-- Translation of the recursive closure `fn` of `filterNodes`
(internal.go).  `find` is `config.Find`, `filters` is `config.Filters`
(already `nil`-free, since `filterNodes` applies `copyValidFilters`
before the first call), `n` is `config.Node` (never nil here: the
top-level nil check is in `filterNodes` below, and children are non-nil
by the loop condition), and `result` is the accumulated slice. -/
def fnGo (find : Bool) (filters : List Pred) (n : HNode) (result : List HNode) :
    List HNode :=
  if find && !result.isEmpty then result
  else
    match filters with
    | [] => result ++ [n]
    | f :: fs =>
      let start := result.length
      let r1 : List HNode :=
        if f n then
          match fs with
          | [] => fnGo find [] n result
          | _ :: _ => fnChildren find fs n.children result
        else result
      fnOuter find (f :: fs) start r1.length n.children r1
termination_by (sizeOf n, filters.length)
decreasing_by
  · exact Prod.Lex.right (sizeOf n) (by simp)
  · exact Prod.Lex.left _ _ (HNode.sizeOf_children_lt n)
  · exact Prod.Lex.left _ _ (HNode.sizeOf_children_lt n)

/-- The child loop of the inner immediately-invoked closure of `fn`:
`for c := config.Node.FirstChild; c != nil; c = c.NextSibling { fn(config) }`
with the consumed filter chain. -/
def fnChildren (find : Bool) (filters : List Pred) (cs : List HNode)
    (result : List HNode) : List HNode :=
  match cs with
  | [] => result
  | c :: rest => fnChildren find filters rest (fnGo find filters c result)
termination_by (sizeOf cs, filters.length)
decreasing_by
  · exact Prod.Lex.left _ _ (by simp only [List.cons.sizeOf_spec]; omega)
  · exact Prod.Lex.left _ _ (by simp only [List.cons.sizeOf_spec]; omega)

/-- The outer child loop of `fn`: recurse into each child with the
original, unconsumed filter chain, running the duplicate-removal pass
after each child. -/
def fnOuter (find : Bool) (filters : List Pred) (start finish : Nat)
    (cs : List HNode) (result : List HNode) : List HNode :=
  match cs with
  | [] => result
  | c :: rest =>
      fnOuter find filters start finish rest
        (dedupStep start finish (fnGo find filters c result))
termination_by (sizeOf cs, filters.length)
decreasing_by
  · exact Prod.Lex.left _ _ (by simp only [List.cons.sizeOf_spec]; omega)
  · exact Prod.Lex.left _ _ (by simp only [List.cons.sizeOf_spec]; omega)
end

/-- Translation of `filterNodes` (internal.go): apply `copyValidFilters`,
then run `fn` on the (possibly nil) start node with an empty result. -/
def filterNodes (filters : List (Option Pred)) (find : Bool)
    (node : Option HNode) : List HNode :=
  match node with
  | none => []
  | some n => fnGo find (copyValidFilters filters) n []

mutual
/-- All nodes of the subtree rooted at `n` (including `n`), in document
order of first visit (preorder). -/
def allNodes : HNode → List HNode
  | .mk i cs => .mk i cs :: joinAll cs

/-- All nodes of the subtrees of a forest, in order. -/
def joinAll : List HNode → List HNode
  | [] => []
  | c :: rest => allNodes c ++ joinAll rest
end

/-- A tree is well formed when every node of it has a distinct identity,
as the distinct pointers of a really parsed tree do. -/
def HNode.WellFormed (n : HNode) : Prop :=
  ((allNodes n).map HNode.nodeId).Nodup

/-- Keep the first occurrence of every entry, dropping later duplicates:
the reference duplicate-removal the traversal is proved to implement. -/
def firstDedup {α : Type} [DecidableEq α] : List α → List α
  | [] => []
  | a :: l => a :: firstDedup (l.filter (fun b => !(decide (b = a))))
termination_by l => l.length
decreasing_by
  exact Nat.lt_succ_of_le (List.length_filter_le _ _)

mutual
/-- The discovery sequence of the traversal: the recursive closure `fn`
of `filterNodes`, in collect-all mode, with the duplicate-removal pass
removed and everything else unchanged.  Results appear in the order the
engine first discovers them, duplicates included. -/
def nvGo (filters : List Pred) (n : HNode) (result : List HNode) :
    List HNode :=
  match filters with
  | [] => result ++ [n]
  | f :: fs =>
    let r1 : List HNode :=
      if f n then
        match fs with
        | [] => nvGo [] n result
        | _ :: _ => nvChildren fs n.children result
      else result
    nvChildren (f :: fs) n.children r1
termination_by (sizeOf n, filters.length)
decreasing_by
  · exact Prod.Lex.right (sizeOf n) (by simp)
  · exact Prod.Lex.left _ _ (by cases n with | mk i cs => simp [HNode.children])
  · exact Prod.Lex.left _ _ (by cases n with | mk i cs => simp [HNode.children])

/-- Child loop of the discovery sequence. -/
def nvChildren (filters : List Pred) (cs : List HNode) (result : List HNode) :
    List HNode :=
  match cs with
  | [] => result
  | c :: rest => nvChildren filters rest (nvGo filters c result)
termination_by (sizeOf cs, filters.length)
decreasing_by
  · exact Prod.Lex.left _ _ (by simp only [List.cons.sizeOf_spec]; omega)
  · exact Prod.Lex.left _ _ (by simp only [List.cons.sizeOf_spec]; omega)
end

/-- The discovery sequence of `filterNodes` in collect-all mode:
`filterNodes` with the duplicate-removal pass removed. -/
def naiveFilterNodes (filters : List (Option Pred)) (node : Option HNode) :
    List HNode :=
  match node with
  | none => []
  | some n => nvGo (copyValidFilters filters) n []

mutual
/-- Closed form of one collect-all step of the traversal, used by the
proofs: the entries contributed by the consumed-chain pass, followed by
the children's unconsumed-chain entries with exact duplicates of the
first pass dropped. -/
def fA (n : HNode) (filters : List Pred) : List HNode :=
  match filters with
  | [] => [n]
  | f :: fs =>
    let i : List HNode :=
      if f n then
        match fs with
        | [] => [n]
        | _ :: _ => fAJoin n.children fs
      else []
    i ++ (fAJoin n.children (f :: fs)).filter (fun x => !(decide (x ∈ i)))
termination_by (sizeOf n, filters.length)
decreasing_by
  · exact Prod.Lex.left _ _ (by cases n with | mk i cs => simp [HNode.children])
  · exact Prod.Lex.left _ _ (by cases n with | mk i cs => simp [HNode.children])

/-- Closed form of the traversal over a forest: concatenation of the
per-tree closed forms. -/
def fAJoin (cs : List HNode) (filters : List Pred) : List HNode :=
  match cs with
  | [] => []
  | c :: rest => fA c filters ++ fAJoin rest filters
termination_by (sizeOf cs, filters.length)
decreasing_by
  · exact Prod.Lex.left _ _ (by simp only [List.cons.sizeOf_spec]; omega)
  · exact Prod.Lex.left _ _ (by simp only [List.cons.sizeOf_spec]; omega)
end

/-- A chain witness, following the specification's wording for a
non-empty filter chain `[p1, ..., pk]`: nodes `m1, ..., mk` where `m1`
lies in the subtree of the start node (start included) and satisfies
`p1`, each next witness is a proper descendant of the previous one
satisfying the next filter, and the overall match is `mk` itself. -/
inductive ChainSat : HNode → List Pred → HNode → Prop where
  | last (n m : HNode) (f : Pred) (hm : m ∈ allNodes n) (hf : f m = true) :
      ChainSat n [f] m
  | cons (n m x c : HNode) (f g : Pred) (gs : List Pred)
      (hm : m ∈ allNodes n) (hf : f m = true) (hc : c ∈ m.children)
      (hrest : ChainSat c (g :: gs) x) :
      ChainSat n (f :: g :: gs) x

/-- An html attribute (`html.Attribute`): namespace, key, value. -/
structure Attribute where
  Namespace : String
  Key : String
  Val : String
deriving DecidableEq

/-- The navigational view of the external parsed tree followed by the
handle accessors: the five pointer fields of `*html.Node` plus the
attribute list.  `α` is the external node type; `none` is a nil
pointer. -/
structure HtmlRel (α : Type) where
  parent : α → Option α
  firstChild : α → Option α
  lastChild : α → Option α
  prevSibling : α → Option α
  nextSibling : α → Option α
  attrList : α → List Attribute

/-- Translation of `htmlutil.Node`: a nil-able reference to an
underlying node (`Data`), the relative depth (`Depth`), and the
last-match back-reference (`Match`). -/
inductive Node (α : Type) : Type where
  | mk (Data : Option α) (Depth : Int) (Match : Option (Node α)) : Node α

/-- The `Data` field of a handle. -/
def Node.Data {α : Type} : Node α → Option α
  | .mk d _ _ => d

/-- The `Depth` field of a handle. -/
def Node.Depth {α : Type} : Node α → Int
  | .mk _ d _ => d

/-- The `Match` field of a handle. -/
def Node.Match {α : Type} : Node α → Option (Node α)
  | .mk _ _ m => m

/-- Translation of `Node.Parent`: follow the parent pointer when the
reference is present; decrement the depth unconditionally. -/
def Node.Parent {α : Type} (R : HtmlRel α) (n : Node α) : Node α :=
  .mk (n.Data.bind R.parent) (n.Depth - 1) n.Match

/-- Translation of `Node.FirstChild`: follow the first-child pointer
when present; increment the depth unconditionally. -/
def Node.FirstChild {α : Type} (R : HtmlRel α) (n : Node α) : Node α :=
  .mk (n.Data.bind R.firstChild) (n.Depth + 1) n.Match

/-- Translation of `Node.LastChild`: follow the last-child pointer when
present; increment the depth unconditionally. -/
def Node.LastChild {α : Type} (R : HtmlRel α) (n : Node α) : Node α :=
  .mk (n.Data.bind R.lastChild) (n.Depth + 1) n.Match

/-- Translation of `Node.PrevSibling`: follow the pointer when present;
depth unchanged. -/
def Node.PrevSibling {α : Type} (R : HtmlRel α) (n : Node α) : Node α :=
  .mk (n.Data.bind R.prevSibling) n.Depth n.Match

/-- Translation of `Node.NextSibling`: follow the pointer when present;
depth unchanged. -/
def Node.NextSibling {α : Type} (R : HtmlRel α) (n : Node α) : Node α :=
  .mk (n.Data.bind R.nextSibling) n.Depth n.Match

/-- Translation of `Node.MatchDepth`: the handle's depth, minus the
back-reference's depth when the back-reference is present. -/
def Node.MatchDepth {α : Type} (n : Node α) : Int :=
  match n.Match with
  | some m => n.Depth - m.Depth
  | none => n.Depth

/-- Translation of `Node.Attr`: the underlying node's attribute list,
empty for an absent reference. -/
def Node.Attr {α : Type} (R : HtmlRel α) (n : Node α) : List Attribute :=
  match n.Data with
  | none => []
  | some d => R.attrList d

/-- Modelled from the spec: `getAttr` is not among the provided source
files.  Per the spec, attribute lookup by (namespace, key) is a linear
scan of the attribute list returning the first match and a found flag,
here an `Option`. -/
def getAttr (ns k : String) : List Attribute → Option Attribute
  | [] => none
  | a :: rest => if a.Namespace = ns ∧ a.Key = k then some a else getAttr ns k rest

/-- Modelled from the spec: `getAttrVal` is not among the provided
source files.  It returns the value of the first matching attribute,
and the empty string when none matches. -/
def getAttrVal (ns k : String) (attrs : List Attribute) : String :=
  match getAttr ns k attrs with
  | some a => a.Val
  | none => ""

/-- Translation of `Node.GetAttrVal` (htmlutil.go): the variadic
`attributes` argument is accepted but the scan always runs over the
handle's own attribute list `n.Attr()`. -/
def Node.GetAttrVal {α : Type} (R : HtmlRel α) (n : Node α)
    (ns k : String) (attributes : List Attribute) : String :=
  getAttrVal ns k (n.Attr R)

/-- The observable outcome of `Parse`: the external parser's failure,
propagated; the distinct no-match failure; or a found node. -/
inductive ParseOutcome (ε : Type) : Type where
  | parseFailure (e : ε) : ParseOutcome ε
  | noMatch : ParseOutcome ε
  | found (n : HNode) : ParseOutcome ε

/-- Modelled from the spec: `findNodeRaw` is not among the provided
source files.  Per the spec it wraps the parsed root as a depth-0
handle and runs the find-first traversal, returning the single result
when one is found. -/
def findNodeRaw (filters : List (Option Pred)) (root : HNode) : Option HNode :=
  (filterNodes filters true (some root)).head?

/-- Translation of `Parse` (htmlutil.go), with the external
`html.Parse` call abstracted into the `parsed` argument: a parse
failure is returned as is; otherwise the find-first result decides
between the no-match failure and success. -/
def Parse {ε : Type} (parsed : Except ε HNode) (filters : List (Option Pred)) :
    ParseOutcome ε :=
  match parsed with
  | .error e => .parseFailure e
  | .ok root =>
    match findNodeRaw filters root with
    | none => .noMatch
    | some n => .found n

/-- Fixture tree used to instantiate proved statements: a root with two
children, the first of which has one child. -/
def wTree1 : HNode := .mk 0 [.mk 1 [.mk 2 []], .mk 3 []]

/-- Fixture tree used for concrete refutations: a root with a single
child. -/
def wTree2 : HNode := .mk 0 [.mk 1 []]

/-- Fixture navigational view over `Nat` nodes used to instantiate
proved statements about handles. -/
def wRel : HtmlRel Nat where
  parent := fun _ => none
  firstChild := fun i => some (i + 1)
  lastChild := fun _ => none
  prevSibling := fun _ => none
  nextSibling := fun _ => none
  attrList := fun _ => []

theorem fnGo_false_nil (n : HNode) (r : List HNode) :
    fnGo false [] n r = r ++ [n] := by
  simp [fnGo]

theorem fnChildren_nil (find : Bool) (filters : List Pred) (r : List HNode) :
    fnChildren find filters [] r = r := by
  simp [fnChildren]

theorem fnChildren_cons (find : Bool) (filters : List Pred) (c : HNode)
    (rest : List HNode) (r : List HNode) :
    fnChildren find filters (c :: rest) r =
      fnChildren find filters rest (fnGo find filters c r) := by
  simp [fnChildren]

theorem fnOuter_nil (find : Bool) (filters : List Pred) (start finish : Nat)
    (r : List HNode) :
    fnOuter find filters start finish [] r = r := by
  simp [fnOuter]

theorem fnOuter_cons (find : Bool) (filters : List Pred) (start finish : Nat)
    (c : HNode) (rest : List HNode) (r : List HNode) :
    fnOuter find filters start finish (c :: rest) r =
      fnOuter find filters start finish rest
        (dedupStep start finish (fnGo find filters c r)) := by
  simp [fnOuter]

theorem fnGo_false_cons_neg (f : Pred) (fs : List Pred) (n : HNode)
    (r : List HNode) (hf : f n = false) :
    fnGo false (f :: fs) n r =
      fnOuter false (f :: fs) r.length r.length n.children r := by
  rw [fnGo.eq_def]
  simp [hf]

theorem fnGo_false_cons_pos_nil (f : Pred) (n : HNode) (r : List HNode)
    (hf : f n = true) :
    fnGo false [f] n r =
      fnOuter false [f] r.length (r ++ [n]).length n.children (r ++ [n]) := by
  rw [fnGo.eq_def]
  simp [hf, fnGo_false_nil]

theorem fnGo_false_cons_pos_cons (f g : Pred) (gs : List Pred) (n : HNode)
    (r : List HNode) (hf : f n = true) :
    fnGo false (f :: g :: gs) n r =
      fnOuter false (f :: g :: gs) r.length
        (fnChildren false (g :: gs) n.children r).length n.children
        (fnChildren false (g :: gs) n.children r) := by
  rw [fnGo.eq_def]
  simp [hf]

theorem fA_nil (n : HNode) : fA n [] = [n] := by
  simp [fA]

theorem fAJoin_nil (filters : List Pred) : fAJoin [] filters = [] := by
  simp [fAJoin]

theorem fAJoin_cons (c : HNode) (rest : List HNode) (filters : List Pred) :
    fAJoin (c :: rest) filters = fA c filters ++ fAJoin rest filters := by
  simp [fAJoin]

theorem fA_cons_neg (f : Pred) (fs : List Pred) (n : HNode) (hf : f n = false) :
    fA n (f :: fs) = fAJoin n.children (f :: fs) := by
  rw [fA.eq_def]
  simp [hf]

theorem fA_cons_pos_nil (f : Pred) (n : HNode) (hf : f n = true) :
    fA n [f] =
      [n] ++ (fAJoin n.children [f]).filter
        (fun x => !(decide (x ∈ ([n] : List HNode)))) := by
  rw [fA.eq_def]
  simp [hf]

theorem fA_cons_pos_cons (f g : Pred) (gs : List Pred) (n : HNode)
    (hf : f n = true) :
    fA n (f :: g :: gs) =
      fAJoin n.children (g :: gs) ++
        (fAJoin n.children (f :: g :: gs)).filter
          (fun x => !(decide (x ∈ fAJoin n.children (g :: gs)))) := by
  rw [fA.eq_def]
  simp [hf]

theorem firstDedup_nil {α : Type} [DecidableEq α] :
    firstDedup ([] : List α) = [] := by
  simp [firstDedup]

theorem firstDedup_cons {α : Type} [DecidableEq α] (a : α) (l : List α) :
    firstDedup (a :: l) =
      a :: firstDedup (l.filter (fun b => !(decide (b = a)))) := by
  rw [firstDedup]

theorem mem_firstDedup {α : Type} [DecidableEq α] (l : List α) (x : α) :
    x ∈ firstDedup l ↔ x ∈ l := by
  match l with
  | [] => simp [firstDedup_nil]
  | a :: t =>
    rw [firstDedup_cons]
    have ih := mem_firstDedup (t.filter (fun b => !(decide (b = a)))) x
    simp only [List.mem_cons, ih, List.mem_filter, Bool.not_eq_true',
      decide_eq_false_iff_not]
    by_cases hxa : x = a <;> simp [hxa]
termination_by l.length
decreasing_by
  exact Nat.lt_succ_of_le (List.length_filter_le _ _)

theorem nodup_firstDedup {α : Type} [DecidableEq α] (l : List α) :
    (firstDedup l).Nodup := by
  match l with
  | [] => simp [firstDedup_nil]
  | a :: t =>
    rw [firstDedup_cons]
    refine List.nodup_cons.mpr ⟨?_, nodup_firstDedup _⟩
    rw [mem_firstDedup]
    simp
termination_by l.length
decreasing_by
  all_goals exact Nat.lt_succ_of_le (List.length_filter_le _ _)

theorem firstDedup_eq_self {α : Type} [DecidableEq α] (l : List α)
    (h : l.Nodup) : firstDedup l = l := by
  induction l with
  | nil => simp [firstDedup_nil]
  | cons a t ih =>
    rw [firstDedup_cons]
    rcases List.nodup_cons.mp h with ⟨ha, ht⟩
    rw [List.filter_eq_self.mpr, ih ht]
    intro b hb
    simp only [Bool.not_eq_true', decide_eq_false_iff_not]
    exact fun hba => ha (hba ▸ hb)

theorem firstDedup_filter {α : Type} [DecidableEq α] (p : α → Bool)
    (l : List α) :
    firstDedup (l.filter p) = (firstDedup l).filter p := by
  match l with
  | [] => simp [firstDedup_nil]
  | a :: t =>
    by_cases hp : p a
    · rw [show (a :: t).filter p = a :: t.filter p by simp [hp],
        firstDedup_cons, firstDedup_cons]
      have hcomm : (t.filter p).filter (fun b => !(decide (b = a))) =
          (t.filter (fun b => !(decide (b = a)))).filter p := by
        rw [List.filter_filter, List.filter_filter]
        exact List.filter_congr (fun b _ => by rw [Bool.and_comm])
      rw [hcomm, firstDedup_filter p (t.filter (fun b => !(decide (b = a))))]
      simp [hp]
    · have hpa : p a = false := by simpa using hp
      have hskip : firstDedup (t.filter (fun b => !(decide (b = a)))) =
          (firstDedup t).filter (fun b => !(decide (b = a))) :=
        firstDedup_filter (fun b => !(decide (b = a))) t
      rw [show (a :: t).filter p = t.filter p by simp [hpa],
        firstDedup_cons, firstDedup_filter p t, hskip,
        List.filter_cons_of_neg hp, List.filter_filter]
      refine (List.filter_congr (fun b _ => ?_)).symm
      by_cases hba : b = a
      · subst hba; simp [hpa]
      · simp [hba]
termination_by l.length
decreasing_by
  all_goals first
    | exact Nat.lt_succ_of_le (List.length_filter_le _ _)
    | simp

theorem firstDedup_append {α : Type} [DecidableEq α] (l1 l2 : List α) :
    firstDedup (l1 ++ l2) =
      firstDedup l1 ++
        firstDedup (l2.filter (fun b => !(decide (b ∈ l1)))) := by
  match l1 with
  | [] =>
    simp only [List.nil_append, firstDedup_nil]
    rw [List.filter_eq_self.mpr (fun b _ => by simp)]
  | a :: t1 =>
    have hfuse : ((l2.filter (fun b => !(decide (b = a)))).filter
        (fun b => !(decide (b ∈ t1.filter (fun c => !(decide (c = a))))))) =
        l2.filter (fun b => !(decide (b ∈ a :: t1))) := by
      rw [List.filter_filter]
      refine List.filter_congr (fun b _ => ?_)
      by_cases hba : b = a
      · subst hba; simp
      · by_cases hbt : b ∈ t1 <;> simp [hba, hbt]
    rw [List.cons_append, firstDedup_cons, firstDedup_cons, List.filter_append,
      firstDedup_append (t1.filter (fun b => !(decide (b = a))))
        (l2.filter (fun b => !(decide (b = a)))), hfuse]
    simp
termination_by l1.length
decreasing_by
  exact Nat.lt_succ_of_le (List.length_filter_le _ _)

theorem allNodes_def (n : HNode) : allNodes n = n :: joinAll n.children := by
  cases n with
  | mk i cs => simp [allNodes, HNode.children]

theorem joinAll_nil : joinAll [] = [] := by
  simp [joinAll]

theorem joinAll_cons (c : HNode) (rest : List HNode) :
    joinAll (c :: rest) = allNodes c ++ joinAll rest := by
  simp [joinAll]

theorem self_mem_allNodes (n : HNode) : n ∈ allNodes n := by
  rw [allNodes_def]
  exact List.mem_cons_self _ _

theorem mem_joinAll {x : HNode} {cs : List HNode} :
    x ∈ joinAll cs ↔ ∃ c ∈ cs, x ∈ allNodes c := by
  induction cs with
  | nil => simp [joinAll_nil]
  | cons c rest ih => simp [joinAll_cons, ih]

theorem mem_allNodes_of_child {x c : HNode} {n : HNode} (hc : c ∈ n.children)
    (hx : x ∈ allNodes c) : x ∈ allNodes n := by
  rw [allNodes_def]
  exact List.mem_cons_of_mem _ (mem_joinAll.mpr ⟨c, hc, hx⟩)

theorem nvGo_nil (n : HNode) (r : List HNode) : nvGo [] n r = r ++ [n] := by
  simp [nvGo]

theorem nvChildren_nil (filters : List Pred) (r : List HNode) :
    nvChildren filters [] r = r := by
  simp [nvChildren]

theorem nvChildren_cons (filters : List Pred) (c : HNode) (rest : List HNode)
    (r : List HNode) :
    nvChildren filters (c :: rest) r = nvChildren filters rest (nvGo filters c r) := by
  simp [nvChildren]

theorem nvGo_cons_neg (f : Pred) (fs : List Pred) (n : HNode) (r : List HNode)
    (hf : f n = false) :
    nvGo (f :: fs) n r = nvChildren (f :: fs) n.children r := by
  rw [nvGo.eq_def]
  simp [hf]

theorem nvGo_cons_pos_nil (f : Pred) (n : HNode) (r : List HNode)
    (hf : f n = true) :
    nvGo [f] n r = nvChildren [f] n.children (r ++ [n]) := by
  rw [nvGo.eq_def]
  simp [hf, nvGo_nil]

theorem nvGo_cons_pos_cons (f g : Pred) (gs : List Pred) (n : HNode)
    (r : List HNode) (hf : f n = true) :
    nvGo (f :: g :: gs) n r =
      nvChildren (f :: g :: gs) n.children (nvChildren (g :: gs) n.children r) := by
  rw [nvGo.eq_def]
  simp [hf]

theorem nv_ctx (B : Nat) :
    (∀ (filters : List Pred) (n : HNode) (r : List HNode), sizeOf n < B →
        nvGo filters n r = r ++ nvGo filters n [])
  ∧ (∀ (filters : List Pred) (cs : List HNode) (r : List HNode), sizeOf cs < B →
        nvChildren filters cs r = r ++ nvChildren filters cs []) := by
  induction B using Nat.strong_induction_on with
  | _ B IH =>
    constructor
    · intro filters n r hn
      have hch := HNode.sizeOf_children_lt n
      have IHc := (IH (sizeOf n) hn).2
      match filters with
      | [] => simp [nvGo_nil]
      | f :: fs =>
        by_cases hf : f n
        · match fs with
          | [] =>
            rw [nvGo_cons_pos_nil f n r hf, nvGo_cons_pos_nil f n [] hf,
              IHc [f] n.children (r ++ [n]) hch, IHc [f] n.children ([] ++ [n]) hch]
            simp
          | g :: gs =>
            rw [nvGo_cons_pos_cons f g gs n r hf, nvGo_cons_pos_cons f g gs n [] hf,
              IHc (g :: gs) n.children r hch,
              IHc (f :: g :: gs) n.children
                (r ++ nvChildren (g :: gs) n.children []) hch,
              IHc (f :: g :: gs) n.children
                (nvChildren (g :: gs) n.children []) hch]
            simp
        · have hf' : f n = false := by simpa using hf
          rw [nvGo_cons_neg f fs n r hf', nvGo_cons_neg f fs n [] hf',
            IHc (f :: fs) n.children r hch]
    · intro filters cs r hcs
      match cs, hcs with
      | [], _ => simp [nvChildren_nil]
      | c :: rest, hcs =>
        have hc : sizeOf c < sizeOf (c :: rest) := by
          simp only [List.cons.sizeOf_spec]; omega
        have hrest : sizeOf rest < sizeOf (c :: rest) := by
          simp only [List.cons.sizeOf_spec]; omega
        have IHn := (IH (sizeOf (c :: rest)) hcs).1
        have IHcs := (IH (sizeOf (c :: rest)) hcs).2
        rw [nvChildren_cons, nvChildren_cons,
          IHn filters c r hc,
          IHcs filters rest (r ++ nvGo filters c []) hrest,
          IHcs filters rest (nvGo filters c []) hrest]
        simp

theorem nvGo_append (filters : List Pred) (n : HNode) (r : List HNode) :
    nvGo filters n r = r ++ nvGo filters n [] :=
  (nv_ctx (sizeOf n + 1)).1 filters n r (by omega)

theorem nvChildren_append (filters : List Pred) (cs : List HNode)
    (r : List HNode) :
    nvChildren filters cs r = r ++ nvChildren filters cs [] :=
  (nv_ctx (sizeOf cs + 1)).2 filters cs r (by omega)

theorem nvChildren_join (filters : List Pred) (c : HNode) (rest : List HNode) :
    nvChildren filters (c :: rest) [] =
      nvGo filters c [] ++ nvChildren filters rest [] := by
  rw [nvChildren_cons, nvChildren_append filters rest (nvGo filters c [])]

theorem dedupStep_append (start finish : Nat) (r A : List HNode)
    (hfin : finish ≤ r.length)
    (hclean : ∀ x ∈ r.drop finish, x ∉ (r.take finish).drop start) :
    dedupStep start finish (r ++ A) =
      r ++ A.filter (fun x => !(decide (x ∈ (r.take finish).drop start))) := by
  unfold dedupStep
  rw [List.take_append_of_le_length hfin, List.drop_append_of_le_length hfin,
    List.filter_append,
    List.filter_eq_self.mpr (fun x hx => by simpa using hclean x hx),
    ← List.append_assoc, List.take_append_drop]

theorem fnGo_ctx (B : Nat) :
    (∀ (filters : List Pred) (n : HNode) (r : List HNode), sizeOf n < B →
        fnGo false filters n r = r ++ fA n filters)
  ∧ (∀ (filters : List Pred) (cs : List HNode) (r : List HNode), sizeOf cs < B →
        fnChildren false filters cs r = r ++ fAJoin cs filters)
  ∧ (∀ (filters : List Pred) (start finish : Nat) (cs : List HNode)
        (r : List HNode), sizeOf cs < B → finish ≤ r.length →
        (∀ x ∈ r.drop finish, x ∉ (r.take finish).drop start) →
        fnOuter false filters start finish cs r =
          r ++ (fAJoin cs filters).filter
            (fun x => !(decide (x ∈ (r.take finish).drop start)))) := by
  induction B using Nat.strong_induction_on with
  | _ B IH =>
    refine ⟨?_, ?_, ?_⟩
    · intro filters n r hn
      have hch := HNode.sizeOf_children_lt n
      have IHb := (IH (sizeOf n) hn).2.1
      have IHc := (IH (sizeOf n) hn).2.2
      match filters with
      | [] => rw [fnGo_false_nil, fA_nil]
      | f :: fs =>
        by_cases hf : f n
        · match fs with
          | [] =>
            rw [fnGo_false_cons_pos_nil f n r hf,
              IHc [f] r.length (r ++ [n]).length n.children (r ++ [n]) hch
                (le_refl _) (by simp)]
            have hseg : ((r ++ [n]).take ((r ++ [n]).length)).drop r.length =
                [n] := by
              rw [List.take_length, List.drop_left]
            simp only [hseg]
            rw [fA_cons_pos_nil f n hf]
            simp
          | g :: gs =>
            rw [fnGo_false_cons_pos_cons f g gs n r hf,
              IHb (g :: gs) n.children r hch,
              IHc (f :: g :: gs) r.length
                (r ++ fAJoin n.children (g :: gs)).length n.children
                (r ++ fAJoin n.children (g :: gs)) hch (le_refl _) (by simp)]
            have hseg : ((r ++ fAJoin n.children (g :: gs)).take
                ((r ++ fAJoin n.children (g :: gs)).length)).drop r.length =
                fAJoin n.children (g :: gs) := by
              rw [List.take_length, List.drop_left]
            simp only [hseg]
            rw [fA_cons_pos_cons f g gs n hf]
            simp
        · have hf' : f n = false := by simpa using hf
          rw [fnGo_false_cons_neg f fs n r hf',
            IHc (f :: fs) r.length r.length n.children r hch (le_refl _)
              (by simp)]
          have hseg : (r.take r.length).drop r.length = ([] : List HNode) := by
            rw [List.take_length, List.drop_length]
          simp only [hseg]
          rw [fA_cons_neg f fs n hf']
          simp
    · intro filters cs r hcs
      match cs, hcs with
      | [], _ => rw [fnChildren_nil, fAJoin_nil, List.append_nil]
      | c :: rest, hcs =>
        have hc : sizeOf c < sizeOf (c :: rest) := by
          simp only [List.cons.sizeOf_spec]; omega
        have hrest : sizeOf rest < sizeOf (c :: rest) := by
          simp only [List.cons.sizeOf_spec]; omega
        have IHa := (IH (sizeOf (c :: rest)) hcs).1
        have IHb := (IH (sizeOf (c :: rest)) hcs).2.1
        rw [fnChildren_cons, IHa filters c r hc,
          IHb filters rest (r ++ fA c filters) hrest, fAJoin_cons,
          List.append_assoc]
    · intro filters start finish cs r hcs hfin hclean
      match cs, hcs with
      | [], _ => rw [fnOuter_nil, fAJoin_nil, List.filter_nil, List.append_nil]
      | c :: rest, hcs =>
        have hc : sizeOf c < sizeOf (c :: rest) := by
          simp only [List.cons.sizeOf_spec]; omega
        have hrest : sizeOf rest < sizeOf (c :: rest) := by
          simp only [List.cons.sizeOf_spec]; omega
        have IHa := (IH (sizeOf (c :: rest)) hcs).1
        have IHo := (IH (sizeOf (c :: rest)) hcs).2.2
        rw [fnOuter_cons, IHa filters c r hc,
          dedupStep_append start finish r (fA c filters) hfin hclean]
        generalize hA : (fA c filters).filter
          (fun x => !(decide (x ∈ (r.take finish).drop start))) = Af
        have hfin2 : finish ≤ (r ++ Af).length := by
          rw [List.length_append]; omega
        have hclean2 : ∀ x ∈ (r ++ Af).drop finish,
            x ∉ ((r ++ Af).take finish).drop start := by
          rw [List.drop_append_of_le_length hfin,
            List.take_append_of_le_length hfin]
          intro x hx
          rcases List.mem_append.mp hx with hx1 | hx2
          · exact hclean x hx1
          · rw [← hA] at hx2
            have := (List.mem_filter.mp hx2).2
            simpa using this
        rw [IHo filters start finish rest (r ++ Af) hrest hfin2 hclean2]
        simp only [List.take_append_of_le_length hfin]
        rw [fAJoin_cons, List.filter_append, ← hA, List.append_assoc]

theorem fnGo_eq_fA (filters : List Pred) (n : HNode) (r : List HNode) :
    fnGo false filters n r = r ++ fA n filters :=
  (fnGo_ctx (sizeOf n + 1)).1 filters n r (by omega)

theorem fnChildren_eq_fAJoin (filters : List Pred) (cs : List HNode)
    (r : List HNode) :
    fnChildren false filters cs r = r ++ fAJoin cs filters :=
  (fnGo_ctx (sizeOf cs + 1)).2.1 filters cs r (by omega)

theorem filterNodes_eq_fA (filters : List (Option Pred)) (n : HNode) :
    filterNodes filters false (some n) = fA n (copyValidFilters filters) := by
  show fnGo false (copyValidFilters filters) n [] = _
  rw [fnGo_eq_fA]
  simp

theorem fA_sub (B : Nat) :
    (∀ (filters : List Pred) (n : HNode), sizeOf n < B →
        ∀ x ∈ fA n filters, x ∈ allNodes n)
  ∧ (∀ (filters : List Pred) (cs : List HNode), sizeOf cs < B →
        ∀ x ∈ fAJoin cs filters, x ∈ joinAll cs) := by
  induction B using Nat.strong_induction_on with
  | _ B IH =>
    constructor
    · intro filters n hn x hx
      have hch := HNode.sizeOf_children_lt n
      have IHj := (IH (sizeOf n) hn).2
      match filters with
      | [] =>
        rw [fA_nil] at hx
        simp at hx
        exact hx ▸ self_mem_allNodes n
      | f :: fs =>
        by_cases hf : f n
        · match fs with
          | [] =>
            rw [fA_cons_pos_nil f n hf] at hx
            rcases List.mem_append.mp hx with hx1 | hx2
            · simp at hx1
              exact hx1 ▸ self_mem_allNodes n
            · have := IHj [f] n.children hch x (List.mem_filter.mp hx2).1
              rw [allNodes_def]
              exact List.mem_cons_of_mem _ this
          | g :: gs =>
            rw [fA_cons_pos_cons f g gs n hf] at hx
            rcases List.mem_append.mp hx with hx1 | hx2
            · have := IHj (g :: gs) n.children hch x hx1
              rw [allNodes_def]
              exact List.mem_cons_of_mem _ this
            · have := IHj (f :: g :: gs) n.children hch x
                (List.mem_filter.mp hx2).1
              rw [allNodes_def]
              exact List.mem_cons_of_mem _ this
        · rw [fA_cons_neg f fs n (by simpa using hf)] at hx
          have := IHj (f :: fs) n.children hch x hx
          rw [allNodes_def]
          exact List.mem_cons_of_mem _ this
    · intro filters cs hcs x hx
      match cs, hcs with
      | [], _ => rw [fAJoin_nil] at hx; simp at hx
      | c :: rest, hcs =>
        have hc : sizeOf c < sizeOf (c :: rest) := by
          simp only [List.cons.sizeOf_spec]; omega
        have hrest : sizeOf rest < sizeOf (c :: rest) := by
          simp only [List.cons.sizeOf_spec]; omega
        rw [fAJoin_cons] at hx
        rw [joinAll_cons]
        rcases List.mem_append.mp hx with hx1 | hx2
        · exact List.mem_append.mpr
            (Or.inl ((IH _ hcs).1 filters c hc x hx1))
        · exact List.mem_append.mpr
            (Or.inr ((IH _ hcs).2 filters rest hrest x hx2))

theorem nv_sub (B : Nat) :
    (∀ (filters : List Pred) (n : HNode), sizeOf n < B →
        ∀ x ∈ nvGo filters n [], x ∈ allNodes n)
  ∧ (∀ (filters : List Pred) (cs : List HNode), sizeOf cs < B →
        ∀ x ∈ nvChildren filters cs [], x ∈ joinAll cs) := by
  induction B using Nat.strong_induction_on with
  | _ B IH =>
    constructor
    · intro filters n hn x hx
      have hch := HNode.sizeOf_children_lt n
      have IHj := (IH (sizeOf n) hn).2
      have hdown : ∀ y ∈ joinAll n.children, y ∈ allNodes n := by
        intro y hy
        rw [allNodes_def]
        exact List.mem_cons_of_mem _ hy
      match filters with
      | [] =>
        rw [nvGo_nil] at hx
        simp at hx
        exact hx ▸ self_mem_allNodes n
      | f :: fs =>
        by_cases hf : f n
        · match fs with
          | [] =>
            rw [nvGo_cons_pos_nil f n [] hf, List.nil_append,
              nvChildren_append [f] n.children [n]] at hx
            rcases List.mem_append.mp hx with hx1 | hx2
            · simp at hx1
              exact hx1 ▸ self_mem_allNodes n
            · exact hdown x (IHj [f] n.children hch x hx2)
          | g :: gs =>
            rw [nvGo_cons_pos_cons f g gs n [] hf,
              nvChildren_append (f :: g :: gs) n.children
                (nvChildren (g :: gs) n.children [])] at hx
            rcases List.mem_append.mp hx with hx1 | hx2
            · exact hdown x (IHj (g :: gs) n.children hch x hx1)
            · exact hdown x (IHj (f :: g :: gs) n.children hch x hx2)
        · rw [nvGo_cons_neg f fs n [] (by simpa using hf)] at hx
          exact hdown x (IHj (f :: fs) n.children hch x hx)
    · intro filters cs hcs x hx
      match cs, hcs with
      | [], _ => rw [nvChildren_nil] at hx; simp at hx
      | c :: rest, hcs =>
        have hc : sizeOf c < sizeOf (c :: rest) := by
          simp only [List.cons.sizeOf_spec]; omega
        have hrest : sizeOf rest < sizeOf (c :: rest) := by
          simp only [List.cons.sizeOf_spec]; omega
        rw [nvChildren_join] at hx
        rw [joinAll_cons]
        rcases List.mem_append.mp hx with hx1 | hx2
        · exact List.mem_append.mpr
            (Or.inl ((IH _ hcs).1 filters c hc x hx1))
        · exact List.mem_append.mpr
            (Or.inr ((IH _ hcs).2 filters rest hrest x hx2))

theorem fA_subset {filters : List Pred} {n : HNode} {x : HNode}
    (hx : x ∈ fA n filters) : x ∈ allNodes n :=
  (fA_sub (sizeOf n + 1)).1 filters n (by omega) x hx

theorem fAJoin_subset {filters : List Pred} {cs : List HNode} {x : HNode}
    (hx : x ∈ fAJoin cs filters) : x ∈ joinAll cs :=
  (fA_sub (sizeOf cs + 1)).2 filters cs (by omega) x hx

theorem nvGo_subset {filters : List Pred} {n : HNode} {x : HNode}
    (hx : x ∈ nvGo filters n []) : x ∈ allNodes n :=
  (nv_sub (sizeOf n + 1)).1 filters n (by omega) x hx

theorem nvChildren_subset {filters : List Pred} {cs : List HNode} {x : HNode}
    (hx : x ∈ nvChildren filters cs []) : x ∈ joinAll cs :=
  (nv_sub (sizeOf cs + 1)).2 filters cs (by omega) x hx

theorem wf_children {n : HNode} (h : n.WellFormed) :
    ((joinAll n.children).map HNode.nodeId).Nodup := by
  unfold HNode.WellFormed at h
  rw [allNodes_def] at h
  exact (List.nodup_cons.mp h).2

theorem forest_nodup_split {c : HNode} {rest : List HNode}
    (h : ((joinAll (c :: rest)).map HNode.nodeId).Nodup) :
    ((allNodes c).map HNode.nodeId).Nodup ∧
    ((joinAll rest).map HNode.nodeId).Nodup ∧
    ∀ x, x ∈ allNodes c → x ∉ joinAll rest := by
  rw [joinAll_cons, List.map_append] at h
  rcases List.nodup_append.mp h with ⟨h1, h2, hdisj⟩
  refine ⟨h1, h2, fun x hx1 hx2 => ?_⟩
  exact hdisj (List.mem_map_of_mem HNode.nodeId hx1)
    (List.mem_map_of_mem HNode.nodeId hx2)

theorem fA_dedup (B : Nat) :
    (∀ (filters : List Pred) (n : HNode), sizeOf n < B → n.WellFormed →
        fA n filters = firstDedup (nvGo filters n []))
  ∧ (∀ (filters : List Pred) (cs : List HNode), sizeOf cs < B →
        ((joinAll cs).map HNode.nodeId).Nodup →
        fAJoin cs filters = firstDedup (nvChildren filters cs [])) := by
  induction B using Nat.strong_induction_on with
  | _ B IH =>
    constructor
    · intro filters n hn hwf
      have hch := HNode.sizeOf_children_lt n
      have IHj := (IH (sizeOf n) hn).2
      have hwfc := wf_children hwf
      have hone : firstDedup [n] = [n] := by
        rw [firstDedup_cons]
        simp [firstDedup_nil]
      match filters with
      | [] =>
        rw [fA_nil, nvGo_nil, List.nil_append, hone]
      | f :: fs =>
        by_cases hf : f n
        · match fs with
          | [] =>
            rw [fA_cons_pos_nil f n hf,
              nvGo_cons_pos_nil f n [] hf, List.nil_append,
              nvChildren_append [f] n.children [n],
              firstDedup_append [n] (nvChildren [f] n.children []),
              firstDedup_filter, ← IHj [f] n.children hch hwfc, hone]
          | g :: gs =>
            have hI := IHj (g :: gs) n.children hch hwfc
            have hX := IHj (f :: g :: gs) n.children hch hwfc
            rw [fA_cons_pos_cons f g gs n hf,
              nvGo_cons_pos_cons f g gs n [] hf,
              nvChildren_append (f :: g :: gs) n.children
                (nvChildren (g :: gs) n.children []),
              firstDedup_append, firstDedup_filter, ← hI, ← hX]
            congr 1
            refine List.filter_congr (fun x _ => ?_)
            have hmem : (x ∈ fAJoin n.children (g :: gs)) ↔
                (x ∈ nvChildren (g :: gs) n.children []) := by
              rw [hI, mem_firstDedup]
            exact congrArg (fun b => !b) (decide_eq_decide.mpr hmem)
        · rw [fA_cons_neg f fs n (by simpa using hf),
            nvGo_cons_neg f fs n [] (by simpa using hf)]
          exact IHj (f :: fs) n.children hch hwfc
    · intro filters cs hcs hids
      match cs, hcs with
      | [], _ => rw [fAJoin_nil, nvChildren_nil, firstDedup_nil]
      | c :: rest, hcs =>
        have hc : sizeOf c < sizeOf (c :: rest) := by
          simp only [List.cons.sizeOf_spec]; omega
        have hrest : sizeOf rest < sizeOf (c :: rest) := by
          simp only [List.cons.sizeOf_spec]; omega
        rcases forest_nodup_split hids with ⟨h1, h2, hdisj⟩
        have hfc : fA c filters = firstDedup (nvGo filters c []) :=
          (IH (sizeOf (c :: rest)) hcs).1 filters c hc h1
        have hfr : fAJoin rest filters = firstDedup (nvChildren filters rest []) :=
          (IH (sizeOf (c :: rest)) hcs).2 filters rest hrest h2
        rw [fAJoin_cons, nvChildren_join,
          firstDedup_append, firstDedup_filter, ← hfc, ← hfr]
        congr 1
        refine (List.filter_eq_self.mpr (fun x hx => ?_)).symm
        have hxr : x ∈ joinAll rest := fAJoin_subset hx
        simp only [Bool.not_eq_true', decide_eq_false_iff_not]
        intro hxc
        exact hdisj x (nvGo_subset hxc) hxr

theorem fA_eq_firstDedup_nv (filters : List Pred) (n : HNode)
    (h : n.WellFormed) :
    fA n filters = firstDedup (nvGo filters n []) :=
  (fA_dedup (sizeOf n + 1)).1 filters n (by omega) h

theorem mem_append_filter_right {x : HNode} {i X : List HNode} (hx : x ∈ X) :
    x ∈ i ++ X.filter (fun y => !(decide (y ∈ i))) := by
  by_cases h : x ∈ i
  · exact List.mem_append.mpr (Or.inl h)
  · exact List.mem_append.mpr (Or.inr (List.mem_filter.mpr ⟨hx, by simp [h]⟩))

theorem ChainSat_lift {c n x : HNode} {f : Pred} {fs : List Pred}
    (hc : c ∈ n.children) (h : ChainSat c (f :: fs) x) :
    ChainSat n (f :: fs) x := by
  cases h
  case last =>
    rename_i hm hf
    exact ChainSat.last n x f (mem_allNodes_of_child hc hm) hf
  case cons =>
    rename_i m c2 g2 gs2 hc2 hm hf hrest
    exact ChainSat.cons n m x c2 f g2 gs2 (mem_allNodes_of_child hc hm) hf hc2 hrest

theorem mem_fA_chain (B : Nat) :
    (∀ (f : Pred) (fs : List Pred) (n x : HNode), sizeOf n < B →
        (x ∈ fA n (f :: fs) ↔ ChainSat n (f :: fs) x))
  ∧ (∀ (f : Pred) (fs : List Pred) (cs : List HNode) (x : HNode),
        sizeOf cs < B →
        (x ∈ fAJoin cs (f :: fs) ↔ ∃ c ∈ cs, ChainSat c (f :: fs) x)) := by
  induction B using Nat.strong_induction_on with
  | _ B IH =>
    constructor
    · intro f fs n x hn
      have hch := HNode.sizeOf_children_lt n
      have IHj := (IH (sizeOf n) hn).2
      constructor
      · intro hx
        by_cases hf : f n
        · match fs with
          | [] =>
            rw [fA_cons_pos_nil f n hf] at hx
            rcases List.mem_append.mp hx with hx1 | hx2
            · have hxn : x = n := by simpa using hx1
              exact hxn ▸ ChainSat.last n n f (self_mem_allNodes n) hf
            · have hx3 := (List.mem_filter.mp hx2).1
              rcases (IHj f [] n.children x hch).mp hx3 with ⟨c, hc, hcs⟩
              exact ChainSat_lift hc hcs
          | g :: gs =>
            rw [fA_cons_pos_cons f g gs n hf] at hx
            rcases List.mem_append.mp hx with hx1 | hx2
            · rcases (IHj g gs n.children x hch).mp hx1 with ⟨c, hc, hcs⟩
              exact ChainSat.cons n n x c f g gs (self_mem_allNodes n) hf hc hcs
            · have hx3 := (List.mem_filter.mp hx2).1
              rcases (IHj f (g :: gs) n.children x hch).mp hx3 with ⟨c, hc, hcs⟩
              exact ChainSat_lift hc hcs
        · rw [fA_cons_neg f fs n (by simpa using hf)] at hx
          rcases (IHj f fs n.children x hch).mp hx with ⟨c, hc, hcs⟩
          exact ChainSat_lift hc hcs
      · intro hsat
        cases hsat
        case last =>
          rename_i hm hfm
          rw [allNodes_def] at hm
          rcases List.mem_cons.mp hm with hxn | hm'
          · subst hxn
            rw [fA_cons_pos_nil f x hfm]
            exact List.mem_append.mpr (Or.inl (by simp))
          · rcases mem_joinAll.mp hm' with ⟨c, hc, hmc⟩
            have hsub : x ∈ fAJoin n.children [f] :=
              (IHj f [] n.children x hch).mpr
                ⟨c, hc, ChainSat.last c x f hmc hfm⟩
            by_cases hf2 : f n
            · rw [fA_cons_pos_nil f n hf2]
              exact mem_append_filter_right hsub
            · rw [fA_cons_neg f [] n (by simpa using hf2)]
              exact hsub
        case cons =>
          rename_i m c g gs hc hm hfm hrest
          rw [allNodes_def] at hm
          rcases List.mem_cons.mp hm with hmn | hm'
          · subst hmn
            rw [fA_cons_pos_cons f g gs m hfm]
            have hx1 : x ∈ fAJoin m.children (g :: gs) :=
              (IHj g gs m.children x hch).mpr ⟨c, hc, hrest⟩
            exact List.mem_append.mpr (Or.inl hx1)
          · rcases mem_joinAll.mp hm' with ⟨c', hc', hmc⟩
            have hsub : x ∈ fAJoin n.children (f :: g :: gs) :=
              (IHj f (g :: gs) n.children x hch).mpr
                ⟨c', hc', ChainSat.cons c' m x c f g gs hmc hfm hc hrest⟩
            by_cases hf2 : f n
            · rw [fA_cons_pos_cons f g gs n hf2]
              exact mem_append_filter_right hsub
            · rw [fA_cons_neg f (g :: gs) n (by simpa using hf2)]
              exact hsub
    · intro f fs cs x hcs
      match cs, hcs with
      | [], _ =>
        rw [fAJoin_nil]
        simp
      | c :: rest, hcs =>
        have hc : sizeOf c < sizeOf (c :: rest) := by
          simp only [List.cons.sizeOf_spec]; omega
        have hrest : sizeOf rest < sizeOf (c :: rest) := by
          simp only [List.cons.sizeOf_spec]; omega
        rw [fAJoin_cons]
        constructor
        · intro hx
          rcases List.mem_append.mp hx with hx1 | hx2
          · exact ⟨c, List.mem_cons_self _ _,
              ((IH _ hcs).1 f fs c x hc).mp hx1⟩
          · rcases ((IH _ hcs).2 f fs rest x hrest).mp hx2 with ⟨c', hc', hcs'⟩
            exact ⟨c', List.mem_cons_of_mem _ hc', hcs'⟩
        · rintro ⟨c', hc', hcs'⟩
          rcases List.mem_cons.mp hc' with hcc | hcr
          · subst hcc
            exact List.mem_append.mpr
              (Or.inl (((IH _ hcs).1 f fs c' x hc).mpr hcs'))
          · exact List.mem_append.mpr
              (Or.inr (((IH _ hcs).2 f fs rest x hrest).mpr ⟨c', hcr, hcs'⟩))

theorem mem_fA_iff_chain {f : Pred} {fs : List Pred} {n x : HNode} :
    x ∈ fA n (f :: fs) ↔ ChainSat n (f :: fs) x :=
  (mem_fA_chain (sizeOf n + 1)).1 f fs n x (by omega)

theorem fnGo_find_stuck (filters : List Pred) (n : HNode) (r : List HNode)
    (h : r ≠ []) : fnGo true filters n r = r := by
  match r with
  | [] => exact absurd rfl h
  | a :: t =>
    rw [fnGo.eq_def]
    simp

theorem fnChildren_find_stuck (filters : List Pred) (cs : List HNode)
    (r : List HNode) (h : r ≠ []) : fnChildren true filters cs r = r := by
  induction cs with
  | nil => exact fnChildren_nil true filters r
  | cons c rest ih =>
    rw [fnChildren_cons, fnGo_find_stuck filters c r h]
    exact ih

theorem dedupStep_zero (r : List HNode) : dedupStep 0 0 r = r := by
  unfold dedupStep
  simp

theorem dedupStep_one {x : HNode} : dedupStep 0 1 [x] = [x] := by
  unfold dedupStep
  simp

theorem fnOuter_find_one (filters : List Pred) (cs : List HNode) (x : HNode) :
    fnOuter true filters 0 1 cs [x] = [x] := by
  induction cs with
  | nil => exact fnOuter_nil true filters 0 1 [x]
  | cons c rest ih =>
    rw [fnOuter_cons, fnGo_find_stuck filters c [x] (by simp), dedupStep_one]
    exact ih

theorem fnOuter_find_zero (filters : List Pred) (cs : List HNode)
    (r : List HNode) : fnOuter true filters 0 0 cs r = fnChildren true filters cs r := by
  induction cs generalizing r with
  | nil => rw [fnOuter_nil, fnChildren_nil]
  | cons c rest ih =>
    rw [fnOuter_cons, fnChildren_cons, dedupStep_zero]
    exact ih _

theorem fnGo_find_nil (n : HNode) : fnGo true [] n [] = [n] := by
  rw [fnGo.eq_def]
  simp

theorem fnGo_find_cons_neg (f : Pred) (fs : List Pred) (n : HNode)
    (hf : f n = false) :
    fnGo true (f :: fs) n [] = fnOuter true (f :: fs) 0 0 n.children [] := by
  rw [fnGo.eq_def]
  simp [hf]

theorem fnGo_find_cons_pos_nil (f : Pred) (n : HNode) (hf : f n = true) :
    fnGo true [f] n [] = fnOuter true [f] 0 1 n.children [n] := by
  rw [fnGo.eq_def]
  simp [hf, fnGo_find_nil]

theorem fnGo_find_cons_pos_cons (f g : Pred) (gs : List Pred) (n : HNode)
    (hf : f n = true) :
    fnGo true (f :: g :: gs) n [] =
      fnOuter true (f :: g :: gs) 0
        (fnChildren true (g :: gs) n.children []).length n.children
        (fnChildren true (g :: gs) n.children []) := by
  rw [fnGo.eq_def]
  simp [hf]

theorem find_take (B : Nat) :
    (∀ (filters : List Pred) (n : HNode), sizeOf n < B →
        fnGo true filters n [] = (fA n filters).take 1)
  ∧ (∀ (filters : List Pred) (cs : List HNode), sizeOf cs < B →
        fnChildren true filters cs [] = (fAJoin cs filters).take 1) := by
  induction B using Nat.strong_induction_on with
  | _ B IH =>
    constructor
    · intro filters n hn
      have hch := HNode.sizeOf_children_lt n
      have IHj := (IH (sizeOf n) hn).2
      match filters with
      | [] =>
        rw [fnGo_find_nil, fA_nil]
        simp
      | f :: fs =>
        by_cases hf : f n
        · match fs with
          | [] =>
            rw [fnGo_find_cons_pos_nil f n hf, fnOuter_find_one,
              fA_cons_pos_nil f n hf]
            simp
          | g :: gs =>
            rw [fnGo_find_cons_pos_cons f g gs n hf,
              IHj (g :: gs) n.children hch,
              fA_cons_pos_cons f g gs n hf]
            match hI : fAJoin n.children (g :: gs) with
            | [] =>
              rw [List.take_nil, List.length_nil, fnOuter_find_zero,
                IHj (f :: g :: gs) n.children hch]
              simp
            | y :: ys =>
              rw [List.take_succ_cons, List.take_zero, List.length_singleton,
                fnOuter_find_one]
              simp
        · have hf' : f n = false := by simpa using hf
          rw [fnGo_find_cons_neg f fs n hf', fnOuter_find_zero,
            IHj (f :: fs) n.children hch, fA_cons_neg f fs n hf']
    · intro filters cs hcs
      match cs, hcs with
      | [], _ =>
        rw [fnChildren_nil, fAJoin_nil, List.take_nil]
      | c :: rest, hcs =>
        have hc : sizeOf c < sizeOf (c :: rest) := by
          simp only [List.cons.sizeOf_spec]; omega
        have hrest : sizeOf rest < sizeOf (c :: rest) := by
          simp only [List.cons.sizeOf_spec]; omega
        rw [fnChildren_cons, (IH _ hcs).1 filters c hc, fAJoin_cons]
        match hA : fA c filters with
        | [] =>
          rw [List.take_nil, (IH _ hcs).2 filters rest hrest]
          simp
        | y :: ys =>
          rw [List.take_succ_cons, List.take_zero,
            fnChildren_find_stuck filters rest [y] (by simp)]
          simp

theorem filterNodes_find_take (filters : List (Option Pred))
    (node : Option HNode) :
    filterNodes filters true node = (filterNodes filters false node).take 1 := by
  match node with
  | none => rfl
  | some n =>
    show fnGo true (copyValidFilters filters) n [] =
      (fnGo false (copyValidFilters filters) n []).take 1
    rw [(find_take (sizeOf n + 1)).1 (copyValidFilters filters) n (by omega),
      fnGo_eq_fA]
    simp

theorem Node.Data_mk {α : Type} (d : Option α) (dep : Int)
    (m : Option (Node α)) : (Node.mk d dep m).Data = d := rfl

theorem Node.Depth_mk {α : Type} (d : Option α) (dep : Int)
    (m : Option (Node α)) : (Node.mk d dep m).Depth = dep := rfl

theorem Node.Match_mk {α : Type} (d : Option α) (dep : Int)
    (m : Option (Node α)) : (Node.mk d dep m).Match = m := rfl

theorem copyValidFilters_map_some (fs : List Pred) :
    copyValidFilters (fs.map some) = fs := by
  induction fs with
  | nil => rfl
  | cons f rest ih =>
    simp only [List.map_cons, copyValidFilters, ih]

/-- C1: for every well-formed tree and every filter chain, the
collect-all traversal returns the discovery sequence with every later
duplicate of an earlier entry dropped (first occurrences kept, in
discovery order), and in particular never returns the same underlying
node twice. -/
theorem c1_filter_all_no_duplicates (t : HNode) (fs : List (Option Pred))
    (hwf : t.WellFormed) :
    filterNodes fs false (some t) =
      firstDedup (naiveFilterNodes fs (some t)) ∧
    (filterNodes fs false (some t)).Nodup := by
  have h1 : filterNodes fs false (some t) =
      firstDedup (naiveFilterNodes fs (some t)) := by
    rw [filterNodes_eq_fA, fA_eq_firstDedup_nv _ _ hwf]
    rfl
  exact ⟨h1, h1 ▸ nodup_firstDedup _⟩

theorem c1_witness :
    wTree1.WellFormed ∧
    (filterNodes [some (fun _ => true), some (fun _ => true)] false
        (some wTree1) =
      firstDedup (naiveFilterNodes [some (fun _ => true), some (fun _ => true)]
        (some wTree1)) ∧
    (filterNodes [some (fun _ => true), some (fun _ => true)] false
        (some wTree1)).Nodup) := by
  have hwf : wTree1.WellFormed := by
    simp [HNode.WellFormed, wTree1, allNodes_def, joinAll_cons, joinAll_nil,
      HNode.children, HNode.nodeId]
  exact ⟨hwf, c1_filter_all_no_duplicates wTree1 _ hwf⟩

/-- C2: for every tree and non-empty nil-free filter chain, a node is in
the collect-all result exactly when a chain of witnesses exists: a
first witness in the start's subtree satisfying the first filter, each
later witness a proper descendant of the previous one satisfying the
next filter, the node itself being the last witness. -/
theorem c2_chain_membership (start : HNode) (p : Pred) (ps : List Pred)
    (x : HNode) :
    x ∈ filterNodes ((p :: ps).map some) false (some start) ↔
      ChainSat start (p :: ps) x := by
  rw [filterNodes_eq_fA, copyValidFilters_map_some]
  exact mem_fA_iff_chain

/-- C3: for every filter chain and start handle, the find-first
traversal returns the length-one prefix of the collect-all traversal:
at most one result, equal to the collect-all head when it exists, and
the collect-all result is non-empty whenever find-first succeeds. -/
theorem c3_find_first_refines (fs : List (Option Pred))
    (node : Option HNode) :
    filterNodes fs true node = (filterNodes fs false node).take 1 ∧
    (filterNodes fs true node).length ≤ 1 := by
  refine ⟨filterNodes_find_take fs node, ?_⟩
  rw [filterNodes_find_take fs node]
  exact List.length_take_le 1 (filterNodes fs false node)

/-- C4 (counterexample): on a root with one child, the zero-filter
collect-all traversal returns only the root, not the full reachable
set as the claim states. -/
theorem c4_counterexample :
    filterNodes [] false (some wTree2) = [wTree2] ∧
    filterNodes [] false (some wTree2) ≠ allNodes wTree2 := by
  have h1 : filterNodes [] false (some wTree2) = [wTree2] := by
    rw [filterNodes_eq_fA]
    exact fA_nil wTree2
  refine ⟨h1, ?_⟩
  have hall : allNodes wTree2 = [wTree2, HNode.mk 1 []] := by
    simp [wTree2, allNodes_def, joinAll_cons, joinAll_nil, HNode.children]
  rw [h1, hall]
  simp [wTree2]

/-- C4 (amended): for every start handle with a present node, the
collect-all traversal with zero filters returns exactly the one-element
sequence holding the start node itself; it does not recurse. -/
theorem c4_empty_chain_start_only (n : HNode) :
    filterNodes [] false (some n) = [n] := by
  rw [filterNodes_eq_fA]
  exact fA_nil n

/-- C5: a traversal started from an absent handle returns the empty
sequence for every filter chain and mode, and every navigational
accessor maps an absent handle to an absent handle. -/
theorem c5_absent_propagates (fs : List (Option Pred)) (find : Bool)
    {α : Type} (R : HtmlRel α) (n : Node α) (habs : n.Data = none) :
    filterNodes fs find none = [] ∧
    (n.Parent R).Data = none ∧
    (n.FirstChild R).Data = none ∧
    (n.LastChild R).Data = none ∧
    (n.PrevSibling R).Data = none ∧
    (n.NextSibling R).Data = none := by
  refine ⟨rfl, ?_, ?_, ?_, ?_, ?_⟩ <;>
    simp [Node.Parent, Node.FirstChild, Node.LastChild, Node.PrevSibling,
      Node.NextSibling, Node.Data_mk, habs]

theorem c5_witness :
    (Node.mk (α := Nat) none 0 none).Data = none ∧
    (filterNodes [] false none = [] ∧
     ((Node.mk (α := Nat) none 0 none).Parent wRel).Data = none ∧
     ((Node.mk (α := Nat) none 0 none).FirstChild wRel).Data = none ∧
     ((Node.mk (α := Nat) none 0 none).LastChild wRel).Data = none ∧
     ((Node.mk (α := Nat) none 0 none).PrevSibling wRel).Data = none ∧
     ((Node.mk (α := Nat) none 0 none).NextSibling wRel).Data = none) :=
  ⟨rfl, c5_absent_propagates [] false wRel (Node.mk none 0 none) rfl⟩

/-- C6: a parse failure is propagated as the very same error value; on
parse success the outcome is the distinct no-match condition exactly
when the find-first traversal finds nothing, and a found handle (with
no error) exactly when it finds one; the no-match condition is distinct
from every propagated parse failure. -/
theorem c6_parse_errors (ε : Type) (e : ε) (fs : List (Option Pred))
    (root : HNode) :
    Parse (Except.error e) fs = ParseOutcome.parseFailure e ∧
    (Parse (Except.ok root : Except ε HNode) fs = ParseOutcome.noMatch ↔
      filterNodes fs true (some root) = []) ∧
    (∀ n, Parse (Except.ok root : Except ε HNode) fs = ParseOutcome.found n ↔
      (filterNodes fs true (some root)).head? = some n) ∧
    (∀ e2 : ε, (ParseOutcome.noMatch : ParseOutcome ε) ≠
      ParseOutcome.parseFailure e2) := by
  refine ⟨rfl, ?_, ?_, fun e2 h => by cases h⟩
  · unfold Parse findNodeRaw
    cases hh : filterNodes fs true (some root) with
    | nil => simp [hh]
    | cons a t => simp [hh]
  · intro n
    unfold Parse findNodeRaw
    cases hh : filterNodes fs true (some root) with
    | nil => simp [hh]
    | cons a t => simp [hh]

/-- C7 (counterexample): a handle with depth 1 and no back-reference
has match depth 1, not 0 as the claim states for an absent
back-reference. -/
theorem c7_counterexample :
    (Node.mk (α := Nat) none 1 none).Match = none ∧
    (Node.mk (α := Nat) none 1 none).MatchDepth ≠ 0 := by
  refine ⟨rfl, ?_⟩
  simp [Node.MatchDepth, Node.Match, Node.Depth]

/-- C7 (amended): match depth is the handle's depth minus the
back-reference's depth when the back-reference is present, and is the
handle's own depth (not necessarily 0) when it is absent. -/
theorem c7_match_depth {α : Type} (n : Node α) :
    (∀ m, n.Match = some m → n.MatchDepth = n.Depth - m.Depth) ∧
    (n.Match = none → n.MatchDepth = n.Depth) := by
  constructor
  · intro m hm
    simp [Node.MatchDepth, hm]
  · intro hm
    simp [Node.MatchDepth, hm]

theorem c7_witness :
    (Node.mk (α := Nat) none 5 (some (Node.mk none 2 none))).Match =
      some (Node.mk none 2 none) ∧
    (Node.mk (α := Nat) none 5 (some (Node.mk none 2 none))).MatchDepth =
      5 - 2 ∧
    (Node.mk (α := Nat) none 7 none).Match = none ∧
    (Node.mk (α := Nat) none 7 none).MatchDepth = 7 :=
  ⟨rfl,
   (c7_match_depth (Node.mk (α := Nat) none 5 (some (Node.mk none 2 none)))).1
     (Node.mk none 2 none) rfl,
   rfl,
   (c7_match_depth (Node.mk (α := Nat) none 7 none)).2 rfl⟩

/-- C8: first-child then parent restores the depth; first/last child
increment depth by one, parent decrements it by one, siblings leave it
unchanged; and on an absent handle the node reference stays absent
while the depth still changes per the same rules. -/
theorem c8_depth_bookkeeping {α : Type} (R : HtmlRel α) (n : Node α) :
    ((n.FirstChild R).Parent R).Depth = n.Depth ∧
    (n.FirstChild R).Depth = n.Depth + 1 ∧
    (n.LastChild R).Depth = n.Depth + 1 ∧
    (n.Parent R).Depth = n.Depth - 1 ∧
    (n.PrevSibling R).Depth = n.Depth ∧
    (n.NextSibling R).Depth = n.Depth ∧
    (n.Data = none →
      (n.FirstChild R).Data = none ∧ (n.LastChild R).Data = none ∧
      (n.Parent R).Data = none ∧ (n.PrevSibling R).Data = none ∧
      (n.NextSibling R).Data = none) := by
  refine ⟨?_, rfl, rfl, rfl, rfl, rfl, fun h => ?_⟩
  · simp [Node.Parent, Node.FirstChild, Node.Depth]
  · refine ⟨?_, ?_, ?_, ?_, ?_⟩ <;>
      simp [Node.Parent, Node.FirstChild, Node.LastChild, Node.PrevSibling,
        Node.NextSibling, Node.Data_mk, h]

theorem c8_witness :
    (Node.mk (α := Nat) none 4 none).Data = none ∧
    (((Node.mk (α := Nat) none 4 none).FirstChild wRel).Parent wRel).Depth =
      4 ∧
    ((Node.mk (α := Nat) none 4 none).FirstChild wRel).Data = none :=
  ⟨rfl,
   (c8_depth_bookkeeping wRel (Node.mk (α := Nat) none 4 none)).1,
   ((c8_depth_bookkeeping wRel (Node.mk (α := Nat) none 4 none)).2.2.2.2.2.2
     rfl).1⟩

/-- C9: for every start handle, mode, and filter chain, the traversal
of the chain equals the traversal of the chain with all absent
predicates removed: an absent predicate is skipped, never an automatic
pass, fail, or error. -/
theorem c9_nil_filters_skipped (fs : List (Option Pred)) (find : Bool)
    (node : Option HNode) :
    filterNodes fs find node =
      filterNodes ((copyValidFilters fs).map some) find node := by
  match node with
  | none => rfl
  | some n =>
    show fnGo find (copyValidFilters fs) n [] =
      fnGo find (copyValidFilters ((copyValidFilters fs).map some)) n []
    rw [copyValidFilters_map_some]

/-- C10: `GetAttrVal` is independent of its variadic attributes
argument: any two argument lists give the same result, because the
scan always runs over the handle's own attribute list. -/
theorem c10_getattrval_ignores_argument {α : Type} (R : HtmlRel α)
    (n : Node α) (ns k : String) (a1 a2 : List Attribute) :
    Node.GetAttrVal R n ns k a1 = Node.GetAttrVal R n ns k a2 := rfl
